import Mathlib

set_option maxRecDepth 100000

/-!
Verification of the GitIt repository-analysis server: a shallow embedding of
the GitHub file fetcher (`fetchRepositoryFiles`), the zip admissibility filter
(`shouldSkipFile`), the in-memory TTL cache (`MemoryCache`), and the OpenAI
analysis pipeline (`createRepoStructure`, `selectRepresentativeFiles`) together
with theorems about their behaviour.

Strings model JavaScript strings; all paths in the claims are ASCII, where
Lean `Char` operations and JS UTF-16 operations agree.  JS objects are
modelled as association lists in key-insertion order (the claims never use
integer-like keys, where JS enumeration order would differ).
-/

namespace GitIt

/-! ### String primitives (JS `toLowerCase`, `endsWith`, `includes`, `startsWith`, `split`) -/

/-- JS `String.prototype.toLowerCase` restricted to ASCII, which covers every
string the code compares. -/
def strLower (s : String) : String :=
  ⟨s.data.map Char.toLower⟩

/-- JS `String.prototype.startsWith`. -/
def startsWithStr (s pre : String) : Bool :=
  pre.data.isPrefixOf s.data

/-- JS `String.prototype.endsWith`. -/
def endsWithStr (s suf : String) : Bool :=
  suf.data.isSuffixOf s.data

/-- Does `sub` occur as a contiguous run inside `l`?  (Helper for JS
`String.prototype.includes`.) -/
def hasInfix (sub : List Char) : List Char → Bool
  | [] => sub.isPrefixOf []
  | c :: rest => sub.isPrefixOf (c :: rest) || hasInfix sub rest

/-- JS `String.prototype.includes`. -/
def containsSub (s sub : String) : Bool :=
  hasInfix sub.data s.data

/-- JS `String.prototype.split('/')` on the character list: splitting on a
single separator character, keeping empty segments. -/
def splitChar : List Char → List (List Char)
  | [] => [[]]
  | c :: rest =>
    match splitChar rest with
    | seg :: segs => if c = '/' then [] :: seg :: segs else (c :: seg) :: segs
    | [] => [[]]

/-- Joining segments back with `'/'`: the inverse of `splitChar`. -/
def joinSegs : List (List Char) → List Char
  | [] => []
  | [s] => s
  | s :: s₂ :: rest => s ++ '/' :: joinSegs (s₂ :: rest)

/-- The slash-separated segments of a path, as strings. -/
def segments (p : String) : List String :=
  (splitChar p.data).map List.asString

/-- Node's `path.dirname` for the slash-normalised relative paths the server
produces (no leading or trailing slash): everything before the last `'/'`,
or `"."` when there is none. -/
def dirname (p : String) : String :=
  let rev := p.data.reverse
  if rev.any (· = '/') then List.asString ((rev.dropWhile (· ≠ '/')).tail.reverse)
  else "."

/-! ### The Sampler's priority patterns (`selectRepresentativeFiles`, openai-api.ts)

Each JS regular expression (all carry the `i` flag and contain only literal
text, alternation, the `(^|\/)` head anchor and the `$` tail anchor) is
translated to a boolean test on the lowercased path. -/

/-- `/readme\.md/i` -/
def patReadme (p : String) : Bool :=
  containsSub (strLower p) "readme.md"

/-- `/package\.json|composer\.json|pyproject\.toml/i` -/
def patProjectConfig (p : String) : Bool :=
  containsSub (strLower p) "package.json" || containsSub (strLower p) "composer.json" ||
    containsSub (strLower p) "pyproject.toml"

/-- `/(^|\/)(app|index|main)\.(js|ts|py|java|rb)$/i` -/
def patEntryPoint (p : String) : Bool :=
  ["app", "index", "main"].any fun base =>
    ["js", "ts", "py", "java", "rb"].any fun ext =>
      strLower p == base ++ "." ++ ext ||
        endsWithStr (strLower p) ("/" ++ base ++ "." ++ ext)

/-- `/\.env\.example/i` -/
def patEnvExample (p : String) : Bool :=
  containsSub (strLower p) ".env.example"

/-- `/docker-compose\.yml|dockerfile/i` -/
def patDocker (p : String) : Bool :=
  containsSub (strLower p) "docker-compose.yml" || containsSub (strLower p) "dockerfile"

/-- `/schema\.(sql|js|ts|prisma)/i` -/
def patSchema (p : String) : Bool :=
  containsSub (strLower p) "schema.sql" || containsSub (strLower p) "schema.js" ||
    containsSub (strLower p) "schema.ts" || containsSub (strLower p) "schema.prisma"

/-- `/models\/|entities\/|dto\//i` -/
def patModels (p : String) : Bool :=
  containsSub (strLower p) "models/" || containsSub (strLower p) "entities/" ||
    containsSub (strLower p) "dto/"

/-- `/controllers\/|routes\/|api\//i` -/
def patControllers (p : String) : Bool :=
  containsSub (strLower p) "controllers/" || containsSub (strLower p) "routes/" ||
    containsSub (strLower p) "api/"

/-- `/components\/|views\//i` -/
def patComponents (p : String) : Bool :=
  containsSub (strLower p) "components/" || containsSub (strLower p) "views/"

/-- `/utils\/|helpers\//i` -/
def patUtils (p : String) : Bool :=
  containsSub (strLower p) "utils/" || containsSub (strLower p) "helpers/"

/-- `/tests\/|spec\//i` -/
def patTests (p : String) : Bool :=
  containsSub (strLower p) "tests/" || containsSub (strLower p) "spec/"

/-- The `priorityPatterns` array, in source order. -/
def priorityPatterns : List (String → Bool) :=
  [patReadme, patProjectConfig, patEntryPoint, patEnvExample, patDocker, patSchema,
    patModels, patControllers, patComponents, patUtils, patTests]

/-- Does a path match at least one priority pattern? -/
def matchesPriority (p : String) : Bool :=
  priorityPatterns.any fun pat => pat p

/-! ### `selectRepresentativeFiles` -/

/-- The inner loop of pass 1: for one pattern, scan all paths and add every
match that is not yet selected (`selectedFiles[filePath] = files[filePath]`). -/
def addMatches (sel : List String) (pat : String → Bool) (paths : List String) : List String :=
  paths.foldl (fun s p => if pat p && !(s.contains p) then s ++ [p] else s) sel

/-- Pass 1 of `selectRepresentativeFiles`: iterate the priority patterns in
order, adding all matching not-yet-selected paths for each. -/
def selectPassOne (paths : List String) : List String :=
  priorityPatterns.foldl (fun sel pat => addMatches sel pat paths) []

/-- `MAX_SELECTED_FILES` -/
def MAX_SELECTED_FILES : Nat := 15

/-- Helper for the `reduce` that groups the remaining paths by directory:
append `p` to the group of `d`, creating the group at the end on first sight. -/
def addToGroup : List (String × List String) → String → String → List (String × List String)
  | [], d, p => [(d, [p])]
  | (d', ps) :: rest, d, p =>
    if d' = d then (d, ps ++ [p]) :: rest else (d', ps) :: addToGroup rest d p

/-- `filesByDir`: group the remaining paths by `path.dirname`, directories in
first-seen order, each directory's files in scan order. -/
def groupByDir (paths : List String) : List (String × List String) :=
  paths.foldl (fun acc p => addToGroup acc (dirname p) p) []

/-- Pass 2 of `selectRepresentativeFiles`: one sweep over the directories,
taking the first file of each directory until the ceiling is reached.  The
source's `break` is modelled by the fold skipping every further directory once
the ceiling holds (the selection only grows, so the two agree); the source's
`shift()` has no observable effect because each directory is visited once. -/
def selectPassTwo (sel : List String) (groups : List (String × List String)) : List String :=
  groups.foldl
    (fun s g =>
      if s.length ≥ MAX_SELECTED_FILES then s
      else
        match g.2 with
        | [] => s
        | p :: _ => s ++ [p])
    sel

/-- `MAX_CHARS_PER_FILE` truncation: the post-pass applied to each selected
file's content. -/
def truncateContent (c : String) : String :=
  if c.length > 10000 then c.take 10000 ++ "\n... [file truncated due to size]" else c

/-- JS `files[filePath]` for a path known to be a key. -/
def lookupD (files : List (String × String)) (p : String) : String :=
  match files.lookup p with
  | some c => c
  | none => ""

/-- `selectRepresentativeFiles` (openai-api.ts, lines 316–385): pass 1 over the
priority patterns, pass 2 (round-robin by directory, one sweep) only when fewer
than the ceiling are selected, then per-file truncation. -/
def selectRepresentativeFiles (files : List (String × String)) : List (String × String) :=
  let filePaths := files.map Prod.fst
  let sel1 := selectPassOne filePaths
  let sel :=
    if sel1.length < MAX_SELECTED_FILES then
      selectPassTwo sel1 (groupByDir (filePaths.filter fun p => !(sel1.contains p)))
    else sel1
  sel.map fun p => (p, truncateContent (lookupD files p))

/-! ### `createRepoStructure` (openai-api.ts, lines 267–310)

The JS code builds a nested plain object whose values are `true` for a file
leaf and a nested object for a directory.  `Entry` models such a value, and an
object is an association list in insertion order.  The one fallible step:
descending through a boolean leaf (`current = current[part]` when
`current[part] === true`) makes the next iteration assign a property on a
boolean primitive, which throws a `TypeError` in strict mode (the file is an ES
module); `Option` models the throw. -/

inductive Entry : Type
  | file : Entry
  | dir : List (String × Entry) → Entry
deriving Repr

/-- Property read `obj[key]` on the modelled object. -/
def getKey : List (String × Entry) → String → Option Entry
  | [], _ => none
  | (k, e) :: rest, key => if k = key then some e else getKey rest key

/-- Property write `obj[key] = v`: replace in place, or append a new key. -/
def setKey : List (String × Entry) → String → Entry → List (String × Entry)
  | [], key, v => [(key, v)]
  | (k, e) :: rest, key, v =>
    if k = key then (key, v) :: rest else (k, e) :: setKey rest key v

/-- Read the entry at a (nonempty) segment path, descending through
directories. -/
def lookupPath : List (String × Entry) → List String → Option Entry
  | _, [] => none
  | st, [k] => getKey st k
  | st, k :: k₂ :: rest =>
    match getKey st k with
    | some (Entry.dir children) => lookupPath children (k₂ :: rest)
    | _ => none

/-- One `filePaths.forEach` body of `createRepoStructure`: walk the split
path, creating directory objects for missing middle segments, and assign
`true` at the final segment.  Reaching a boolean leaf mid-path is the throwing
case. -/
def insertPath : List (String × Entry) → List String → Option (List (String × Entry))
  | st, [] => some st
  | st, [k] => some (setKey st k Entry.file)
  | st, k :: k₂ :: rest =>
    match getKey st k with
    | none =>
      match insertPath [] (k₂ :: rest) with
      | some sub => some (setKey st k (Entry.dir sub))
      | none => none
    | some (Entry.dir children) =>
      match insertPath children (k₂ :: rest) with
      | some sub => some (setKey st k (Entry.dir sub))
      | none => none
    | some Entry.file => none

/-- Folding all paths into the structure; a throw aborts the whole loop. -/
def buildGo (st : List (String × Entry)) : List String → Option (List (String × Entry))
  | [] => some st
  | p :: rest =>
    match insertPath st (segments p) with
    | none => none
    | some st' => buildGo st' rest

/-- The structure-building phase of `createRepoStructure`. -/
def buildStructure (filePaths : List String) : Option (List (String × Entry)) :=
  buildGo [] filePaths

/-- `'  '.repeat(indent)` -/
def indentStr : Nat → String
  | 0 => ""
  | n + 1 => "  " ++ indentStr n

/-- `stringifyStructure`: depth-first serialisation, two-space indentation,
`- name` for files and `+ name/` for directories, in object key order. -/
def renderEntries : List (String × Entry) → Nat → String
  | [], _ => ""
  | (k, Entry.file) :: rest, n =>
    indentStr n ++ "- " ++ k ++ "\n" ++ renderEntries rest n
  | (k, Entry.dir children) :: rest, n =>
    indentStr n ++ "+ " ++ k ++ "/\n" ++ renderEntries children (n + 1) ++ renderEntries rest n

/-- `createRepoStructure`: build the nested object from the path list, then
serialise it; `none` models the strict-mode `TypeError` described above. -/
def createRepoStructure (filePaths : List String) : Option String :=
  match buildStructure filePaths with
  | none => none
  | some st => some (renderEntries st 0)

/-- Some nonempty prefix of the segment path `psegs` is a file leaf in the
structure: inserting any strict extension of such a prefix throws. -/
def leafAbove (st : List (String × Entry)) (psegs : List String) : Prop :=
  ∃ r, r ≠ [] ∧ r <+: psegs ∧ lookupPath st r = some Entry.file

/-- `Object.keys(files).sort()`: JS default sort compares strings by UTF-16
code units, which agrees with Lean's lexicographic `≤` on ASCII paths.  The
result of any correct sort is the same list, so insertion sort stands in for
the engine's algorithm. -/
def sortStrings (l : List String) : List String :=
  l.insertionSort (· ≤ ·)

/-- The deterministic prefix of `analyzeRepository` (openai-api.ts, lines
197–210): sort the keys, build the structure rendering, then sample the files.
Everything after this point is the first LLM call, so a `none` here is the
analysis aborting before any LLM call. -/
def analyzeRepositoryPrep (files : List (String × String)) :
    Option (String × List (String × String)) :=
  match createRepoStructure (sortStrings (files.map Prod.fst)) with
  | none => none
  | some structureStr => some (structureStr, selectRepresentativeFiles files)

/-! ### `GitHubAPI.fetchRepositoryFiles` (github-api.ts, lines 159–216) -/

/-- One leaf of `listRepositoryContents`' result, with the content the
subsequent `getFileContent` call would return for it (content fetching always
succeeds in the model; a fetch error only skips the file in the source). -/
structure GHFile where
  name : String
  path : String
  content : String
deriving Repr

/-- The `binaryExtensions` list of `fetchRepositoryFiles` (note: no
`.class`). -/
def binaryExtensions : List String :=
  [".jpg", ".jpeg", ".png", ".gif", ".svg", ".ico", ".webp",
   ".mp4", ".webm", ".ogg", ".mp3", ".wav",
   ".pdf", ".zip", ".rar", ".7z", ".tar", ".gz",
   ".woff", ".woff2", ".eot", ".ttf",
   ".exe", ".dll", ".so", ".dylib"]

/-- The `skipDirs` list of `fetchRepositoryFiles`: four substrings, each with a
trailing slash, matched by `path.includes`. -/
def ghSkipDirs : List String :=
  ["node_modules/", ".git/", "dist/", "build/"]

/-- The `filteredFiles` predicate of `fetchRepositoryFiles`: the lowercased
`name` must not end in a listed extension, and the `path` must not contain a
listed substring. -/
def ghAdmissible (f : GHFile) : Bool :=
  !(binaryExtensions.any fun ext => endsWithStr (strLower f.name) ext) &&
    !(ghSkipDirs.any fun d => containsSub f.path d)

/-- `MAX_FILES` -/
def MAX_FILES : Nat := 100

/-- The fetch loop: `break` once the counter reaches `MAX_FILES`; a file whose
content exceeds 500 KiB is skipped (`continue`) without incrementing the
counter; otherwise the file is recorded and the counter advances. -/
def fetchLoop : List GHFile → Nat → List (String × String) → List (String × String)
  | [], _, acc => acc
  | f :: rest, n, acc =>
    if n ≥ MAX_FILES then acc
    else if f.content.length > 500 * 1024 then fetchLoop rest n acc
    else fetchLoop rest (n + 1) (acc ++ [(f.path, f.content)])

/-- `fetchRepositoryFiles`: filter the leaves, then run the capped fetch
loop. -/
def fetchRepositoryFiles (files : List GHFile) : List (String × String) :=
  fetchLoop (files.filter ghAdmissible) 0 []

/-- The message of the `Error` thrown by every GitHub API wrapper on a
non-success response: `"GitHub API error: ${status} - ${body}"`. -/
def githubErrorMessage (status : Nat) (body : String) : String :=
  "GitHub API error: " ++ toString status ++ " - " ++ body

/-- The rate-limit test of the `/api/analyze/github` catch handler:
`errorMessage.includes('rate limit') || errorMessage.includes('403')`. -/
def isRateLimitResponse (msg : String) : Bool :=
  containsSub msg "rate limit" || containsSub msg "403"

/-- The HTTP status the `/api/analyze/github` handler answers with when the
analysis fails with the given error message. -/
def classifyAnalyzeError (msg : String) : Nat :=
  if isRateLimitResponse msg then 429 else 500

/-! ### `shouldSkipFile` (file-utils.ts, lines 12–45) -/

/-- The `skipExtensions` list of `shouldSkipFile` (this one includes
`.class`). -/
def skipExtensions : List String :=
  [".jpg", ".jpeg", ".png", ".gif", ".svg", ".ico", ".webp",
   ".mp4", ".webm", ".ogg", ".mp3", ".wav",
   ".pdf", ".zip", ".rar", ".7z", ".tar", ".gz",
   ".woff", ".woff2", ".eot", ".ttf",
   ".exe", ".dll", ".so", ".dylib", ".class"]

/-- The `skipDirectories` list of `shouldSkipFile`. -/
def skipDirectories : List String :=
  ["node_modules", "dist", "build", "target", "out",
   ".git", ".idea", ".vscode", ".next", ".vercel",
   "vendor", "bower_components", "jspm_packages",
   "__pycache__", "venv", "env", ".env", ".venv"]

/-- The extension half of `shouldSkipFile`. -/
def extRejects (filePath : String) : Bool :=
  skipExtensions.any fun ext => endsWithStr (strLower filePath) ext

/-- The directory half of `shouldSkipFile`:
`filePath.includes('/dir/') || filePath.startsWith('dir/') || filePath === dir`. -/
def dirRejects (filePath : String) : Bool :=
  skipDirectories.any fun dir =>
    containsSub filePath ("/" ++ dir ++ "/") || startsWithStr filePath (dir ++ "/") ||
      filePath == dir

/-- `shouldSkipFile`: the admissibility filter the zip extractor applies to
entry paths. -/
def shouldSkipFile (filePath : String) : Bool :=
  if extRejects filePath then true
  else if dirRejects filePath then true
  else false

/-! ### `MemoryCache` (cache.ts) -/

/-- The cache state: a JS `Map` from keys to `{value, expiry}`, in insertion
order, with times in milliseconds. -/
def Cache (α : Type) : Type :=
  List (String × α × Nat)

/-- `Map.prototype.get`. -/
def lookupEntry : Cache α → String → Option (α × Nat)
  | [], _ => none
  | (k, v, e) :: rest, key => if k = key then some (v, e) else lookupEntry rest key

/-- `Map.prototype.set`: overwrite in place, or append a new key. -/
def setEntry : Cache α → String → α → Nat → Cache α
  | [], key, v, e => [(key, v, e)]
  | (k, v', e') :: rest, key, v, e =>
    if k = key then (key, v, e) :: rest else (k, v', e') :: setEntry rest key v e

/-- `Map.prototype.delete`. -/
def eraseEntry : Cache α → String → Cache α
  | [], _ => []
  | (k, v, e) :: rest, key => if k = key then rest else (k, v, e) :: eraseEntry rest key

/-- `MemoryCache.set`: stores the value with expiry `Date.now() + ttl * 1000`.
`now` is the value of `Date.now()` at the call. -/
def MemoryCache.set (c : Cache α) (key : String) (v : α) (ttlSeconds now : Nat) : Cache α :=
  setEntry c key v (now + ttlSeconds * 1000)

/-- `MemoryCache.get`: returns the stored value unless the entry is missing or
expired; an expired entry is deleted.  The pair is the returned value and the
cache state after the call. -/
def MemoryCache.get (c : Cache α) (key : String) (now : Nat) : Option α × Cache α :=
  match lookupEntry c key with
  | none => (none, c)
  | some (v, expiry) => if now > expiry then (none, eraseEntry c key) else (some v, c)

/-! ### Concrete inputs used by the counterexamples and witnesses -/

/-- A 12,000-character file content. -/
def demoLongContent : String :=
  List.asString (List.replicate 12000 'a')

/-- A file mapping holding that single long file. -/
def demoLongFiles : List (String × String) :=
  [("a.txt", demoLongContent)]

/-- Sixteen README files in sixteen directories: every path matches the first
priority pattern. -/
def readmeFiles16 : List (String × String) :=
  [("d01/readme.md", ""), ("d02/readme.md", ""), ("d03/readme.md", ""),
   ("d04/readme.md", ""), ("d05/readme.md", ""), ("d06/readme.md", ""),
   ("d07/readme.md", ""), ("d08/readme.md", ""), ("d09/readme.md", ""),
   ("d10/readme.md", ""), ("d11/readme.md", ""), ("d12/readme.md", ""),
   ("d13/readme.md", ""), ("d14/readme.md", ""), ("d15/readme.md", ""),
   ("d16/readme.md", "")]

/-- Twelve README paths: more paths matching a single pattern than there are
patterns. -/
def readmePaths12 : List String :=
  ["d01/readme.md", "d02/readme.md", "d03/readme.md", "d04/readme.md",
   "d05/readme.md", "d06/readme.md", "d07/readme.md", "d08/readme.md",
   "d09/readme.md", "d10/readme.md", "d11/readme.md", "d12/readme.md"]

/-- Twenty files in one directory, none matching a priority pattern. -/
def oneDirFiles20 : List (String × String) :=
  [("zzz/f01.txt", "c"), ("zzz/f02.txt", "c"), ("zzz/f03.txt", "c"),
   ("zzz/f04.txt", "c"), ("zzz/f05.txt", "c"), ("zzz/f06.txt", "c"),
   ("zzz/f07.txt", "c"), ("zzz/f08.txt", "c"), ("zzz/f09.txt", "c"),
   ("zzz/f10.txt", "c"), ("zzz/f11.txt", "c"), ("zzz/f12.txt", "c"),
   ("zzz/f13.txt", "c"), ("zzz/f14.txt", "c"), ("zzz/f15.txt", "c"),
   ("zzz/f16.txt", "c"), ("zzz/f17.txt", "c"), ("zzz/f18.txt", "c"),
   ("zzz/f19.txt", "c"), ("zzz/f20.txt", "c")]

/-! ## Lemmas about the string primitives -/

theorem hasInfix_iff (sub l : List Char) : hasInfix sub l = true ↔ sub <:+: l := by
  induction l with
  | nil =>
    simp [hasInfix]
  | cons c rest ih =>
    rw [List.infix_cons_iff]
    simp [hasInfix, ih]

theorem containsSub_iff (s sub : String) : containsSub s sub = true ↔ sub.data <:+: s.data := by
  simpa [containsSub] using hasInfix_iff sub.data s.data

theorem startsWithStr_iff (s pre : String) : startsWithStr s pre = true ↔ pre.data <+: s.data := by
  simp [startsWithStr]

theorem endsWithStr_iff (s suf : String) : endsWithStr s suf = true ↔ suf.data <:+ s.data := by
  simp [endsWithStr]

theorem splitChar_ne_nil (l : List Char) : splitChar l ≠ [] := by
  cases l with
  | nil => simp [splitChar]
  | cons c rest =>
    rw [splitChar]
    rcases h : splitChar rest with _ | ⟨seg, segs⟩
    · simp
    · by_cases hc : c = '/' <;> simp [hc]

theorem splitChar_cons (c : Char) (rest seg : List Char) (segs : List (List Char))
    (h : splitChar rest = seg :: segs) :
    splitChar (c :: rest) = if c = '/' then [] :: seg :: segs else (c :: seg) :: segs := by
  rw [splitChar, h]

theorem splitChar_dest (l : List Char) :
    ∃ seg segs, splitChar l = seg :: segs := by
  rcases h : splitChar l with _ | ⟨seg, segs⟩
  · exact absurd h (splitChar_ne_nil l)
  · exact ⟨seg, segs, rfl⟩

theorem splitChar_append_slash (a b : List Char) :
    splitChar (a ++ '/' :: b) = splitChar a ++ splitChar b := by
  induction a with
  | nil =>
    obtain ⟨seg, segs, h⟩ := splitChar_dest b
    rw [List.nil_append, splitChar_cons '/' b seg segs h, if_pos rfl, h]
    rfl
  | cons c a' ih =>
    obtain ⟨seg', segs', h'⟩ := splitChar_dest a'
    have hsplit : splitChar (a' ++ '/' :: b) = seg' :: (segs' ++ splitChar b) := by
      rw [ih, h']
      rfl
    rw [List.cons_append, splitChar_cons c (a' ++ '/' :: b) seg' (segs' ++ splitChar b) hsplit,
      splitChar_cons c a' seg' segs' h']
    by_cases hc : c = '/'
    · rw [if_pos hc, if_pos hc]
      rfl
    · rw [if_neg hc, if_neg hc]
      rfl

theorem splitChar_no_slash (l : List Char) (h : '/' ∉ l) : splitChar l = [l] := by
  induction l with
  | nil => rfl
  | cons c rest ih =>
    have hrest := ih (fun hm => h (List.mem_cons_of_mem c hm))
    have hc : ¬ c = '/' := fun hc => h (hc ▸ List.mem_cons_self c rest)
    rw [splitChar_cons c rest rest [] hrest, if_neg hc]

theorem joinSegs_cons (s : List Char) (w : List (List Char)) (hw : w ≠ []) :
    joinSegs (s :: w) = s ++ '/' :: joinSegs w := by
  cases w with
  | nil => exact absurd rfl hw
  | cons t w' => rfl

theorem joinSegs_append (u v : List (List Char)) (hu : u ≠ []) (hv : v ≠ []) :
    joinSegs (u ++ v) = joinSegs u ++ '/' :: joinSegs v := by
  induction u with
  | nil => exact absurd rfl hu
  | cons s u' ih =>
    cases u' with
    | nil =>
      cases v with
      | nil => exact absurd rfl hv
      | cons t v' => simp [joinSegs]
    | cons s₂ u'' =>
      have ih' := ih (by simp)
      rw [List.cons_append, joinSegs_cons s ((s₂ :: u'') ++ v) (by simp), ih',
        joinSegs_cons s (s₂ :: u'') (by simp)]
      simp

theorem joinSegs_splitChar (l : List Char) : joinSegs (splitChar l) = l := by
  induction l with
  | nil => rfl
  | cons c rest ih =>
    obtain ⟨seg, segs, h⟩ := splitChar_dest rest
    rw [h] at ih
    rw [splitChar_cons c rest seg segs h]
    by_cases hc : c = '/'
    · subst hc
      rw [if_pos rfl, joinSegs_cons [] (seg :: segs) (by simp), List.nil_append, ih]
    · rw [if_neg hc]
      cases segs with
      | nil =>
        simp only [joinSegs] at ih ⊢
        rw [ih]
      | cons seg₂ segs' =>
        rw [joinSegs_cons (c :: seg) (seg₂ :: segs') (by simp), List.cons_append]
        rw [joinSegs_cons seg (seg₂ :: segs') (by simp)] at ih
        rw [ih]

theorem mem_dropLast_split {α : Type} {a : α} {l : List α} (h : a ∈ l.dropLast) :
    ∃ u w, l = u ++ a :: w ∧ w ≠ [] := by
  induction l with
  | nil => simp at h
  | cons x rest ih =>
    cases rest with
    | nil => simp at h
    | cons y rest' =>
      rw [List.dropLast_cons₂, List.mem_cons] at h
      rcases h with h | h
      · exact ⟨[], y :: rest', by rw [h]; rfl, by simp⟩
      · obtain ⟨u, w, hw, hne⟩ := ih h
        exact ⟨x :: u, w, by rw [hw]; rfl, hne⟩

/-! ## `MemoryCache` lemmas and claim C8 -/

theorem lookupEntry_setEntry_self {α : Type} (c : Cache α) (k : String) (v : α) (e : Nat) :
    lookupEntry (setEntry c k v e) k = some (v, e) := by
  induction c with
  | nil => simp [setEntry, lookupEntry]
  | cons x rest ih =>
    obtain ⟨k', v', e'⟩ := x
    by_cases h : k' = k <;> simp [setEntry, lookupEntry, h, ih]

theorem lookupEntry_eq_none_of_not_mem {α : Type} (c : Cache α) (k : String)
    (h : k ∉ c.map Prod.fst) : lookupEntry c k = none := by
  induction c with
  | nil => rfl
  | cons x rest ih =>
    obtain ⟨k', v', e'⟩ := x
    simp only [List.map_cons, List.mem_cons] at h
    push_neg at h
    simp [lookupEntry, Ne.symm h.1, ih h.2]

theorem lookupEntry_eraseEntry_self {α : Type} (c : Cache α) (k : String)
    (h : (c.map Prod.fst).Nodup) : lookupEntry (eraseEntry c k) k = none := by
  induction c with
  | nil => rfl
  | cons x rest ih =>
    obtain ⟨k', v', e'⟩ := x
    simp only [List.map_cons, List.nodup_cons] at h
    by_cases hk : k' = k
    · subst hk
      simp only [eraseEntry, if_pos rfl]
      exact lookupEntry_eq_none_of_not_mem rest k' h.1
    · simp [eraseEntry, hk, lookupEntry, ih h.2]

theorem mem_keys_setEntry {α : Type} (c : Cache α) (k x : String) (v : α) (e : Nat)
    (h : x ∈ (setEntry c k v e).map Prod.fst) : x ∈ c.map Prod.fst ∨ x = k := by
  induction c with
  | nil =>
    simp [setEntry] at h
    exact Or.inr h
  | cons y rest ih =>
    obtain ⟨k', v', e'⟩ := y
    by_cases hk : k' = k
    · subst hk
      simp only [setEntry, if_pos rfl, if_true, List.map_cons, List.mem_cons] at h
      rcases h with h | h
      · exact Or.inr h
      · exact Or.inl (List.mem_cons_of_mem _ h)
    · simp only [setEntry, if_neg hk, List.map_cons, List.mem_cons] at h
      rcases h with h | h
      · exact Or.inl (h ▸ List.mem_cons_self _ _)
      · rcases ih h with h' | h'
        · exact Or.inl (List.mem_cons_of_mem _ h')
        · exact Or.inr h'

theorem nodup_keys_setEntry {α : Type} (c : Cache α) (k : String) (v : α) (e : Nat)
    (h : (c.map Prod.fst).Nodup) : ((setEntry c k v e).map Prod.fst).Nodup := by
  induction c with
  | nil => simp [setEntry]
  | cons y rest ih =>
    obtain ⟨k', v', e'⟩ := y
    simp only [List.map_cons, List.nodup_cons] at h
    by_cases hk : k' = k
    · subst hk
      simp only [setEntry, if_pos rfl, if_true, List.map_cons, List.nodup_cons]
      exact h
    · simp only [setEntry, if_neg hk, List.map_cons, List.nodup_cons]
      refine ⟨fun hmem => ?_, ih h.2⟩
      rcases mem_keys_setEntry rest k k' v e hmem with h' | h'
      · exact h.1 h'
      · exact hk h'

/-- C8: after `set(k, v, t)` at time `now`, `get(k)` at any time `now'` not
past the stored expiry `now + t·1000` ms returns `v`; once `now' > expiry` it
returns missing and deletes the entry; `get` of a key with no entry returns
missing; and `set` overwrites any existing entry unconditionally (the stored
pair is exactly `(v, now + t·1000)`).  The key-distinctness hypothesis is the
`Map` invariant every JS `Map` maintains. -/
theorem memoryCache_ttl_spec {α : Type} (c : Cache α) (k : String) (v : α)
    (t now now' : Nat) (hnodup : (c.map Prod.fst).Nodup) :
    lookupEntry (MemoryCache.set c k v t now) k = some (v, now + t * 1000) ∧
    (now' ≤ now + t * 1000 →
      (MemoryCache.get (MemoryCache.set c k v t now) k now').1 = some v) ∧
    (now' > now + t * 1000 →
      (MemoryCache.get (MemoryCache.set c k v t now) k now').1 = none ∧
      lookupEntry (MemoryCache.get (MemoryCache.set c k v t now) k now').2 k = none) ∧
    (lookupEntry c k = none → (MemoryCache.get c k now).1 = none) := by
  have hset : lookupEntry (MemoryCache.set c k v t now) k = some (v, now + t * 1000) :=
    lookupEntry_setEntry_self c k v (now + t * 1000)
  refine ⟨hset, fun hle => ?_, fun hgt => ?_, fun hnone => ?_⟩
  · simp only [MemoryCache.get, hset]
    rw [if_neg (by omega)]
  · simp only [MemoryCache.get, hset]
    rw [if_pos hgt]
    exact ⟨rfl, lookupEntry_eraseEntry_self _ k (nodup_keys_setEntry c k v _ hnodup)⟩
  · simp [MemoryCache.get, hnone]

/-- C8 witness: a fresh cache, `set("k", "v", 300)` at time 0 and an immediate
`get` returns `"v"`; a `get` at time `300001` misses and leaves no entry. -/
theorem memoryCache_ttl_spec_witness :
    (MemoryCache.get (MemoryCache.set ([] : Cache String) "k" "v" 300 0) "k" 0).1 = some "v" ∧
    (MemoryCache.get (MemoryCache.set ([] : Cache String) "k" "v" 300 0) "k" 300001).1 = none :=
  ⟨(memoryCache_ttl_spec [] "k" "v" 300 0 0 (by simp)).2.1 (by omega),
    ((memoryCache_ttl_spec [] "k" "v" 300 0 300001 (by simp)).2.2.1 (by omega)).1⟩

/-! ## Error classification (claim C6) -/

/-- C6 counterexample: a simulated rate-limit failure with HTTP status 429 and
body "Too Many Requests" produces an error message the `/api/analyze/github`
handler classifies as a generic failure (HTTP 500), not as rate-limit (429):
a status-429 failure is not, in general, distinguishable as rate-limit. -/
theorem rateLimit_429_not_distinguished :
    classifyAnalyzeError (githubErrorMessage 429 "Too Many Requests") = 500 := by decide

/-- C6 amended: the thrown error message embeds the HTTP status, and the
handler classifies as rate-limit exactly the messages containing "rate limit"
or "403"; hence every status-403 failure (whatever its body, including the
simulated body containing "rate limit") is answered with 429, while a
status-429 failure whose body avoids both substrings is answered with the
generic 500. -/
theorem rateLimit_classification (body : String) :
    classifyAnalyzeError (githubErrorMessage 403 body) = 429 := by
  have h403 : containsSub (githubErrorMessage 403 body) "403" = true := by
    rw [containsSub_iff]
    refine ⟨"GitHub API error: ".data, " - ".data ++ body.data, ?_⟩
    have hrepr : (toString (403 : Nat)) = "403" := by decide
    simp [githubErrorMessage, hrepr]
  rw [classifyAnalyzeError, isRateLimitResponse, h403]
  simp

/-! ## Truncation (claim C7) -/

/-- C7: every entry of the Sampler's result pairs a selected path with its
original content truncated at 10,000 characters: content longer than 10,000
characters becomes exactly its first 10,000 characters followed by the literal
marker, and content of length at most 10,000 is returned unchanged. -/
theorem selected_content_truncated (files : List (String × String)) (p c : String)
    (h : (p, c) ∈ selectRepresentativeFiles files) :
    (10000 < (lookupD files p).length →
      c = (lookupD files p).take 10000 ++ "\n... [file truncated due to size]") ∧
    ((lookupD files p).length ≤ 10000 → c = lookupD files p) := by
  rw [selectRepresentativeFiles] at h
  obtain ⟨q, _, hq⟩ := List.mem_map.mp h
  obtain ⟨hp, hc⟩ := Prod.mk.injEq .. ▸ hq
  subst hp
  constructor
  · intro hlong
    rw [← hc, truncateContent, if_pos hlong]
  · intro hshort
    rw [← hc, truncateContent, if_neg (by omega)]

/-- C7 witness: instantiating the truncation theorem at the 12,000-character
file selected from `demoLongFiles`. -/
theorem selected_content_truncated_witness :
    (10000 < (lookupD demoLongFiles "a.txt").length →
      truncateContent demoLongContent =
        (lookupD demoLongFiles "a.txt").take 10000 ++ "\n... [file truncated due to size]") ∧
    ((lookupD demoLongFiles "a.txt").length ≤ 10000 →
      truncateContent demoLongContent = lookupD demoLongFiles "a.txt") :=
  selected_content_truncated demoLongFiles "a.txt" (truncateContent demoLongContent)
    (List.Mem.head _)

/-! ## Sampler pass lemmas (claims C1, C2, C3) -/

theorem mem_addMatches (pat : String → Bool) (paths : List String) :
    ∀ sel q, q ∈ addMatches sel pat paths ↔ q ∈ sel ∨ (q ∈ paths ∧ pat q = true) := by
  induction paths with
  | nil => simp [addMatches]
  | cons p rest ih =>
    intro sel q
    rw [addMatches, List.foldl_cons]
    show q ∈ addMatches (if pat p && !(sel.contains p) then sel ++ [p] else sel) pat rest ↔ _
    by_cases hc : (pat p && !(sel.contains p)) = true
    · rw [if_pos hc, ih]
      rw [Bool.and_eq_true] at hc
      have hpat : pat p = true := hc.1
      simp only [List.mem_append, List.mem_cons, List.not_mem_nil, or_false]
      constructor
      · rintro ((h | rfl) | ⟨h, hq⟩)
        · exact Or.inl h
        · exact Or.inr ⟨Or.inl rfl, hpat⟩
        · exact Or.inr ⟨Or.inr h, hq⟩
      · rintro (h | ⟨rfl | h, hq⟩)
        · exact Or.inl (Or.inl h)
        · exact Or.inl (Or.inr rfl)
        · exact Or.inr ⟨h, hq⟩
    · rw [if_neg hc, ih]
      have hc' : pat p = false ∨ p ∈ sel := by
        by_cases hpat : pat p = true
        · refine Or.inr ?_
          by_cases hmem : p ∈ sel
          · exact hmem
          · exact absurd (by simp [hpat, hmem]) hc
        · cases hp : pat p with
          | false => exact Or.inl rfl
          | true => exact absurd hp hpat
      simp only [List.mem_cons]
      constructor
      · rintro (h | ⟨h, hq⟩)
        · exact Or.inl h
        · exact Or.inr ⟨Or.inr h, hq⟩
      · rintro (h | ⟨rfl | h, hq⟩)
        · exact Or.inl h
        · rcases hc' with h' | h'
          · exact absurd hq (by rw [h']; simp)
          · exact Or.inl h'
        · exact Or.inr ⟨h, hq⟩

theorem nodup_addMatches (pat : String → Bool) (paths : List String) :
    ∀ sel, sel.Nodup → (addMatches sel pat paths).Nodup := by
  induction paths with
  | nil => exact fun sel h => h
  | cons p rest ih =>
    intro sel hsel
    rw [addMatches, List.foldl_cons]
    show (addMatches (if pat p && !(sel.contains p) then sel ++ [p] else sel) pat rest).Nodup
    by_cases hc : (pat p && !(sel.contains p)) = true
    · rw [if_pos hc]
      refine ih (sel ++ [p]) ?_
      rw [Bool.and_eq_true] at hc
      have hnot : p ∉ sel := by simpa using hc.2
      simp [List.nodup_append, hsel, hnot]
    · rw [if_neg hc]
      exact ih sel hsel

theorem mem_passOne_fold (paths : List String) (pats : List (String → Bool)) :
    ∀ sel q, q ∈ pats.foldl (fun sel pat => addMatches sel pat paths) sel ↔
      q ∈ sel ∨ (q ∈ paths ∧ ∃ pat ∈ pats, pat q = true) := by
  induction pats with
  | nil => simp
  | cons pat pats' ih =>
    intro sel q
    rw [List.foldl_cons, ih, mem_addMatches]
    simp only [List.mem_cons]
    constructor
    · rintro ((h | ⟨h, hq⟩) | ⟨h, pat', hmem, hq⟩)
      · exact Or.inl h
      · exact Or.inr ⟨h, pat, Or.inl rfl, hq⟩
      · exact Or.inr ⟨h, pat', Or.inr hmem, hq⟩
    · rintro (h | ⟨h, pat', rfl | hmem, hq⟩)
      · exact Or.inl (Or.inl h)
      · exact Or.inl (Or.inr ⟨h, hq⟩)
      · exact Or.inr ⟨h, pat', hmem, hq⟩

theorem nodup_passOne_fold (paths : List String) (pats : List (String → Bool)) :
    ∀ sel, sel.Nodup → (pats.foldl (fun sel pat => addMatches sel pat paths) sel).Nodup := by
  induction pats with
  | nil => exact fun sel h => h
  | cons pat pats' ih =>
    intro sel hsel
    rw [List.foldl_cons]
    exact ih _ (nodup_addMatches pat paths sel hsel)

theorem mem_selectPassOne (paths : List String) (q : String) :
    q ∈ selectPassOne paths ↔ q ∈ paths ∧ matchesPriority q = true := by
  rw [selectPassOne, mem_passOne_fold]
  simp only [List.not_mem_nil, false_or, matchesPriority, List.any_eq_true]

theorem nodup_selectPassOne (paths : List String) : (selectPassOne paths).Nodup :=
  nodup_passOne_fold paths priorityPatterns [] List.nodup_nil

theorem length_selectPassTwo (groups : List (String × List String)) :
    ∀ sel : List String,
      (selectPassTwo sel groups).length ≤ max sel.length MAX_SELECTED_FILES := by
  induction groups with
  | nil => exact fun sel => Nat.le_max_left _ _
  | cons g rest ih =>
    intro sel
    rw [selectPassTwo, List.foldl_cons]
    show (selectPassTwo (if sel.length ≥ MAX_SELECTED_FILES then sel
      else match g.2 with | [] => sel | p :: _ => sel ++ [p]) rest).length ≤ _
    by_cases hlen : sel.length ≥ MAX_SELECTED_FILES
    · rw [if_pos hlen]
      exact ih sel
    · rw [if_neg hlen]
      rcases g.2 with _ | ⟨p, ps⟩
      · exact ih sel
      · refine le_trans (ih (sel ++ [p])) ?_
        have : (sel ++ [p]).length ≤ MAX_SELECTED_FILES := by
          rw [List.length_append, List.length_singleton]
          omega
        omega

theorem length_selectPassTwo_single_sweep (groups : List (String × List String)) :
    ∀ sel : List String, (selectPassTwo sel groups).length ≤ sel.length + groups.length := by
  induction groups with
  | nil => exact fun sel => by simp [selectPassTwo]
  | cons g rest ih =>
    intro sel
    rw [selectPassTwo, List.foldl_cons]
    show (selectPassTwo (if sel.length ≥ MAX_SELECTED_FILES then sel
      else match g.2 with | [] => sel | p :: _ => sel ++ [p]) rest).length ≤ _
    by_cases hlen : sel.length ≥ MAX_SELECTED_FILES
    · rw [if_pos hlen]
      refine Nat.le_trans (ih sel) ?_
      rw [List.length_cons]
      omega
    · rw [if_neg hlen]
      rcases g.2 with _ | ⟨p, ps⟩
      · refine Nat.le_trans (ih sel) ?_
        rw [List.length_cons]
        omega
      · refine Nat.le_trans (ih (sel ++ [p])) ?_
        rw [List.length_append, List.length_singleton, List.length_cons]
        omega

/-- C1 counterexample: a mapping of sixteen files that all match the README
priority pattern yields a selection of sixteen entries — more than the
15-entry ceiling the claim asserts for every input. -/
theorem sampler_ceiling_exceeded :
    (selectRepresentativeFiles readmeFiles16).length = 16 ∧ ¬ (16 ≤ 15) := by
  constructor
  · decide
  · decide

/-- C1 amended: the 15-entry ceiling only limits the round-robin pass; the
priority pass is unbounded, so the selection size is at most the maximum of 15
and the number of paths matching at least one priority pattern (and hence at
most 15 whenever at most 15 paths match a priority pattern). -/
theorem sampler_size_bound (files : List (String × String)) :
    (selectRepresentativeFiles files).length ≤
      max MAX_SELECTED_FILES ((files.map Prod.fst).filter matchesPriority).length := by
  rw [selectRepresentativeFiles]
  show ((if (selectPassOne (files.map Prod.fst)).length < MAX_SELECTED_FILES then
      selectPassTwo (selectPassOne (files.map Prod.fst))
        (groupByDir ((files.map Prod.fst).filter fun p =>
          !((selectPassOne (files.map Prod.fst)).contains p)))
    else selectPassOne (files.map Prod.fst)).map
      fun p => (p, truncateContent (lookupD files p))).length ≤ _
  rw [List.length_map]
  have hlen1 : (selectPassOne (files.map Prod.fst)).length ≤
      ((files.map Prod.fst).filter matchesPriority).length := by
    refine List.Subperm.length_le (List.Nodup.subperm (nodup_selectPassOne _) ?_)
    intro q hq
    rw [mem_selectPassOne] at hq
    exact List.mem_filter.mpr ⟨hq.1, hq.2⟩
  by_cases h : (selectPassOne (files.map Prod.fst)).length < MAX_SELECTED_FILES
  · rw [if_pos h]
    have h2 := length_selectPassTwo
      (groupByDir ((files.map Prod.fst).filter fun p =>
        !((selectPassOne (files.map Prod.fst)).contains p)))
      (selectPassOne (files.map Prod.fst))
    omega
  · rw [if_neg h]
    omega

/-- C2 counterexample: the first priority pattern alone adds both of two
matching paths (not only the first), and with twelve README paths pass 1
selects twelve files — more than the eleven priority patterns. -/
theorem passOne_not_one_per_pattern :
    addMatches [] patReadme ["a/readme.md", "b/readme.md"] =
      ["a/readme.md", "b/readme.md"] ∧
    (selectPassOne readmePaths12).length = 12 ∧ priorityPatterns.length = 11 := by
  refine ⟨by decide, by decide, by decide⟩

/-- C2 amended: in pass 1 each pattern adds, in scan order, every matching
path not yet selected; after pass 1 the selected set consists of exactly the
paths matching at least one priority pattern, each selected once — with no
bound by the number of patterns. -/
theorem passOne_membership (paths : List String) :
    (∀ q, q ∈ selectPassOne paths ↔ q ∈ paths ∧ matchesPriority q = true) ∧
      (selectPassOne paths).Nodup :=
  ⟨fun q => mem_selectPassOne paths q, nodup_selectPassOne paths⟩

/-- C3 counterexample: twenty files in a single directory with no priority
match yield one selected file, not the fifteen the claim's sweep-repetition
reading predicts. -/
theorem passTwo_no_sweep_repetition :
    (selectRepresentativeFiles oneDirFiles20).length = 1 ∧
      ¬ (selectRepresentativeFiles oneDirFiles20).length = 15 := by
  refine ⟨by decide, by decide⟩

/-- C3 amended: pass 2 performs a single sweep over the directory groups,
taking at most one file from each directory (so it adds at most one file per
directory overall, never revisiting a directory), and on the twenty-file
single-directory mapping the Sampler returns exactly one file. -/
theorem passTwo_single_sweep :
    (∀ (sel : List String) (groups : List (String × List String)),
      (selectPassTwo sel groups).length ≤ sel.length + groups.length) ∧
    (selectRepresentativeFiles oneDirFiles20).length = 1 :=
  ⟨fun sel groups => length_selectPassTwo_single_sweep groups sel, by decide⟩

/-! ## Fetch loop lemmas (claim C4) -/

theorem fetchLoop_length (l : List GHFile) :
    ∀ (n : Nat) (acc : List (String × String)),
      (fetchLoop l n acc).length ≤ acc.length + (MAX_FILES - n) := by
  induction l with
  | nil => intro n acc; rw [fetchLoop]; omega
  | cons f rest ih =>
    intro n acc
    rw [fetchLoop]
    by_cases hn : n ≥ MAX_FILES
    · rw [if_pos hn]; omega
    · rw [if_neg hn]
      by_cases hbig : f.content.length > 500 * 1024
      · rw [if_pos hbig]
        exact ih n acc
      · rw [if_neg hbig]
        refine Nat.le_trans (ih (n + 1) (acc ++ [(f.path, f.content)])) ?_
        rw [List.length_append, List.length_singleton]
        rw [MAX_FILES] at *
        omega

theorem fetchLoop_mem (l : List GHFile) :
    ∀ (n : Nat) (acc : List (String × String)) (p c : String),
      (p, c) ∈ fetchLoop l n acc →
        (p, c) ∈ acc ∨ ∃ f ∈ l, f.path = p ∧ f.content = c ∧ c.length ≤ 500 * 1024 := by
  induction l with
  | nil =>
    intro n acc p c h
    rw [fetchLoop] at h
    exact Or.inl h
  | cons f rest ih =>
    intro n acc p c h
    rw [fetchLoop] at h
    by_cases hn : n ≥ MAX_FILES
    · rw [if_pos hn] at h
      exact Or.inl h
    · rw [if_neg hn] at h
      by_cases hbig : f.content.length > 500 * 1024
      · rw [if_pos hbig] at h
        rcases ih n acc p c h with h' | ⟨g, hg, hrest⟩
        · exact Or.inl h'
        · exact Or.inr ⟨g, List.mem_cons_of_mem f hg, hrest⟩
      · rw [if_neg hbig] at h
        rcases ih (n + 1) (acc ++ [(f.path, f.content)]) p c h with h' | ⟨g, hg, hrest⟩
        · rcases List.mem_append.mp h' with h'' | h''
          · exact Or.inl h''
          · have hpc : f.path = p ∧ f.content = c := by
              have := List.mem_singleton.mp h''
              exact ⟨congrArg Prod.fst this |>.symm, congrArg Prod.snd this |>.symm⟩
            exact Or.inr ⟨f, List.mem_cons_self f rest,
              hpc.1, hpc.2, by rw [← hpc.2]; omega⟩
        · exact Or.inr ⟨g, List.mem_cons_of_mem f hg, hrest⟩

/-- C4 counterexample: a repository listing holding the single file `x.class`
produces a mapping whose key `x.class` ends (lowercased) in the §6-denylisted
extension `.class` — the zip-side Admissibility Filter would reject that very
path, so the fetcher does not apply the §6 path filter. -/
theorem fetch_admits_class_file :
    fetchRepositoryFiles [⟨"x.class", "x.class", "hi"⟩] = [("x.class", "hi")] ∧
    shouldSkipFile "x.class" = true ∧
    endsWithStr (strLower "x.class") ".class" = true := by
  refine ⟨by decide, by decide, by decide⟩

/-- C4 amended: every key of the mapping comes from a listed file that passes
the fetcher's own filter (lowercased *name* not ending in one of its 26
extensions — `.class` absent — and *path* not containing any of the four
substrings `node_modules/`, `.git/`, `dist/`, `build/`); the mapping has at
most 100 entries; and each stored content is the file's full content, of at
most 500 KiB — larger files are skipped, never truncated. -/
theorem fetch_respects_own_filter_and_caps (files : List GHFile) :
    (fetchRepositoryFiles files).length ≤ MAX_FILES ∧
    ∀ p c, (p, c) ∈ fetchRepositoryFiles files →
      ∃ f ∈ files, f.path = p ∧ f.content = c ∧ ghAdmissible f = true ∧
        c.length ≤ 500 * 1024 := by
  constructor
  · have := fetchLoop_length (files.filter ghAdmissible) 0 []
    simpa [fetchRepositoryFiles] using this
  · intro p c h
    rw [fetchRepositoryFiles] at h
    rcases fetchLoop_mem (files.filter ghAdmissible) 0 [] p c h with h' | ⟨f, hf, hp, hc, hlen⟩
    · simp at h'
    · obtain ⟨hmem, hadm⟩ := List.mem_filter.mp hf
      exact ⟨f, hmem, hp, hc, hadm, hlen⟩

/-- C4 witness: instantiating the amended theorem on a one-file listing. -/
theorem fetch_respects_own_filter_and_caps_witness :
    ∃ f ∈ [(⟨"a.txt", "a.txt", "hi"⟩ : GHFile)], f.path = "a.txt" ∧ f.content = "hi" ∧
      ghAdmissible f = true ∧ "hi".length ≤ 500 * 1024 :=
  (fetch_respects_own_filter_and_caps [⟨"a.txt", "a.txt", "hi"⟩]).2 "a.txt" "hi" (by decide)

/-! ## Admissibility filter lemmas (claim C5) -/

theorem skipDirectories_no_slash : ∀ d ∈ skipDirectories, '/' ∉ d.data := by decide

theorem data_map_segments (p : String) : (segments p).map String.data = splitChar p.data := by
  rw [segments, List.map_map]
  have hid : (String.data ∘ List.asString) = id := funext fun l => rfl
  rw [hid, List.map_id]

theorem asString_segments (p : String) :
    segments p = (splitChar p.data).map List.asString := rfl

/-- C5 counterexample: `src/venv` has the §6-denylisted name `venv` as its
final path segment, yet the directory half of `shouldSkipFile` admits it (the
check only matches `/venv/` inside, `venv/` in front, or the whole path). -/
theorem dirFilter_misses_final_segment :
    dirRejects "src/venv" = false ∧ shouldSkipFile "src/venv" = false ∧
    "venv" ∈ segments "src/venv" ∧ "venv" ∈ skipDirectories := by
  refine ⟨by decide, by decide, by decide, by decide⟩

/-- C5 amended: the directory half of `shouldSkipFile` rejects a path exactly
when some slash-separated segment *other than the final one* equals a
denylisted directory name, or the whole path equals a denylisted name; a
denylisted name appearing only as the final segment (e.g. a file `src/venv`)
is admitted. -/
theorem dirRejects_iff (p : String) :
    dirRejects p = true ↔
      ∃ d ∈ skipDirectories, d ∈ (segments p).dropLast ∨ p = d := by
  rw [dirRejects, List.any_eq_true]
  constructor
  · rintro ⟨d, hd, hmatch⟩
    refine ⟨d, hd, ?_⟩
    have hnoslash : '/' ∉ d.data := skipDirectories_no_slash d hd
    rw [Bool.or_eq_true, Bool.or_eq_true] at hmatch
    rcases hmatch with (hinf | hpre) | heq
    · left
      rw [containsSub_iff] at hinf
      obtain ⟨u, v, huv⟩ := hinf
      have hp : p.data = u ++ '/' :: (d.data ++ '/' :: v) := by
        rw [← huv]
        simp
      have hsplit : splitChar p.data =
          splitChar u ++ ([d.data] ++ splitChar v) := by
        rw [hp, splitChar_append_slash, splitChar_append_slash,
          splitChar_no_slash d.data hnoslash]
      obtain ⟨sv, svs, hv⟩ := splitChar_dest v
      rw [hv] at hsplit
      rw [asString_segments, hsplit, List.map_append]
      rw [show List.map List.asString ([d.data] ++ sv :: svs) =
        List.asString d.data :: List.asString sv :: List.map List.asString svs from by simp]
      rw [List.dropLast_append_cons, List.dropLast_cons₂]
      exact List.mem_append_right _ (List.mem_cons_self _ _)
    · left
      rw [startsWithStr_iff] at hpre
      obtain ⟨v, hv⟩ := hpre
      have hp : p.data = d.data ++ '/' :: v := by
        rw [← hv]
        simp
      have hsplit : splitChar p.data = [d.data] ++ splitChar v := by
        rw [hp, splitChar_append_slash, splitChar_no_slash d.data hnoslash]
      obtain ⟨sv, svs, hv'⟩ := splitChar_dest v
      rw [hv'] at hsplit
      rw [asString_segments, hsplit]
      rw [show List.map List.asString ([d.data] ++ sv :: svs) =
        List.asString d.data :: List.asString sv :: List.map List.asString svs from by simp]
      rw [List.dropLast_cons₂]
      exact List.mem_cons_self _ _
    · right
      exact eq_of_beq heq
  · rintro ⟨d, hd, hcase⟩
    refine ⟨d, hd, ?_⟩
    rw [Bool.or_eq_true, Bool.or_eq_true]
    rcases hcase with hmem | heq
    · obtain ⟨U, W, hUW, hW⟩ := mem_dropLast_split hmem
      have hdata : splitChar p.data = U.map String.data ++ d.data :: W.map String.data := by
        rw [← data_map_segments, hUW]
        simp
      have hjoin : p.data = joinSegs (U.map String.data ++ d.data :: W.map String.data) := by
        rw [← hdata, joinSegs_splitChar]
      have hWne : W.map String.data ≠ [] := by
        simpa using hW
      cases U with
      | nil =>
        refine Or.inl (Or.inr ?_)
        rw [startsWithStr_iff]
        rw [List.map_nil, List.nil_append,
          joinSegs_cons d.data (W.map String.data) hWne] at hjoin
        exact ⟨joinSegs (W.map String.data), by rw [hjoin]; simp⟩
      | cons u₀ U' =>
        refine Or.inl (Or.inl ?_)
        rw [containsSub_iff]
        rw [joinSegs_append ((u₀ :: U').map String.data) (d.data :: W.map String.data)
          (by simp) (by simp), joinSegs_cons d.data (W.map String.data) hWne] at hjoin
        refine ⟨joinSegs ((u₀ :: U').map String.data), joinSegs (W.map String.data), ?_⟩
        rw [hjoin]
        simp
    · refine Or.inr ?_
      rw [heq]
      simp

/-! ## Structure rendering (claim C9) -/

theorem segments_single (f : String) (hf : '/' ∉ f.data) : segments f = [f] := by
  rw [asString_segments, splitChar_no_slash f.data hf]
  rfl

theorem segments_ne_nil (p : String) : segments p ≠ [] := by
  rw [asString_segments]
  intro h
  exact splitChar_ne_nil p.data (by simpa using h)

theorem segments_append_slash (p s : String) :
    segments (p ++ "/" ++ s) = segments p ++ segments s := by
  have hd : (p ++ "/" ++ s).data = p.data ++ '/' :: s.data := by
    simp
  rw [asString_segments, hd, splitChar_append_slash, List.map_append]
  rfl

/-- C9: `createRepoStructure` splits paths on `/`, treats the final segment as
a file leaf and earlier segments as directories, and serialises depth-first
with two-space indentation, `+ name/` for directories and `- name` for files,
siblings in first-insertion order: the claim's example renders as stated, a
single slash-free path renders as a top-level leaf, and a two-segment path
renders as a directory containing an indented leaf. -/
theorem createRepoStructure_spec :
    createRepoStructure ["a/b.js", "a/c.js", "d.js"] =
      some "+ a/\n  - b.js\n  - c.js\n- d.js\n" ∧
    (∀ f : String, '/' ∉ f.data → createRepoStructure [f] = some ("- " ++ f ++ "\n")) ∧
    (∀ d f : String, '/' ∉ d.data → '/' ∉ f.data →
      createRepoStructure [d ++ "/" ++ f] =
        some ("+ " ++ d ++ "/\n" ++ "  " ++ "- " ++ f ++ "\n")) := by
  refine ⟨?_, fun f hf => ?_, fun d f hd hf => ?_⟩
  · rw [createRepoStructure,
      show buildStructure ["a/b.js", "a/c.js", "d.js"] =
        some [("a", Entry.dir [("b.js", Entry.file), ("c.js", Entry.file)]),
          ("d.js", Entry.file)] from rfl]
    show some (renderEntries _ 0) = _
    congr 1
    simp only [renderEntries, indentStr]
    apply String.ext
    simp
  · rw [createRepoStructure, buildStructure, buildGo, segments_single f hf]
    simp only [insertPath, setKey, buildGo, renderEntries, indentStr]
    congr 1
    apply String.ext
    simp
  · rw [createRepoStructure, buildStructure, buildGo, segments_append_slash,
      segments_single d hd, segments_single f hf]
    simp only [List.cons_append, List.nil_append, insertPath, getKey, setKey, buildGo,
      renderEntries, indentStr]
    congr 1
    apply String.ext
    simp

/-- C9 witness: the two general conjuncts instantiated at slash-free names. -/
theorem createRepoStructure_spec_witness :
    createRepoStructure ["x.js"] = some ("- " ++ "x.js" ++ "\n") ∧
    createRepoStructure ["lib" ++ "/" ++ "y.js"] =
      some ("+ " ++ "lib" ++ "/\n" ++ "  " ++ "- " ++ "y.js" ++ "\n") :=
  ⟨createRepoStructure_spec.2.1 "x.js" (by decide),
    createRepoStructure_spec.2.2 "lib" "y.js" (by decide) (by decide)⟩

/-! ## Structure building failure (claim C10) -/

theorem getKey_setKey_self (st : List (String × Entry)) (k : String) (v : Entry) :
    getKey (setKey st k v) k = some v := by
  induction st with
  | nil => simp [setKey, getKey]
  | cons x rest ih =>
    obtain ⟨k', e'⟩ := x
    by_cases h : k' = k <;> simp [setKey, getKey, h, ih]

theorem getKey_setKey_ne (st : List (String × Entry)) (k k' : String) (v : Entry)
    (h : k' ≠ k) : getKey (setKey st k v) k' = getKey st k' := by
  have hkk' : ¬ k = k' := fun hh => h hh.symm
  induction st with
  | nil => simp [setKey, getKey, hkk']
  | cons x rest ih =>
    obtain ⟨k'', e''⟩ := x
    rw [setKey]
    by_cases h2 : k'' = k
    · subst h2
      rw [if_pos rfl, getKey, if_neg hkk', getKey, if_neg hkk']
    · rw [if_neg h2, getKey, getKey]
      by_cases h3 : k'' = k'
      · rw [if_pos h3, if_pos h3]
      · rw [if_neg h3, if_neg h3, ih]

theorem insertPath_created : ∀ (segs : List String) (st st' : List (String × Entry)),
    segs ≠ [] → insertPath st segs = some st' → lookupPath st' segs = some Entry.file
  | [], _, _, hne, _ => absurd rfl hne
  | [k], st, st', _, hins => by
    rw [insertPath] at hins
    obtain rfl := Option.some.inj hins
    rw [lookupPath]
    exact getKey_setKey_self st k Entry.file
  | k :: k₂ :: rest, st, st', _, hins => by
    rw [insertPath] at hins
    cases hget : getKey st k with
    | none =>
      simp only [hget] at hins
      cases hsub : insertPath [] (k₂ :: rest) with
      | none => simp [hsub] at hins
      | some sub =>
        simp only [hsub] at hins
        obtain rfl := Option.some.inj hins
        rw [lookupPath, getKey_setKey_self]
        exact insertPath_created (k₂ :: rest) [] sub (by simp) hsub
    | some e =>
      cases e with
      | file => simp [hget] at hins
      | dir children =>
        simp only [hget] at hins
        cases hsub : insertPath children (k₂ :: rest) with
        | none => simp [hsub] at hins
        | some sub =>
          simp only [hsub] at hins
          obtain rfl := Option.some.inj hins
          rw [lookupPath, getKey_setKey_self]
          exact insertPath_created (k₂ :: rest) children sub (by simp) hsub


theorem insertPath_fail : ∀ (r : List String) (st : List (String × Entry)) (x : String)
    (xs : List String), r ≠ [] → lookupPath st r = some Entry.file →
    insertPath st (r ++ x :: xs) = none
  | [], _, _, _, hne, _ => absurd rfl hne
  | [k], st, x, xs, _, hlook => by
    rw [lookupPath] at hlook
    show insertPath st (k :: x :: xs) = none
    rw [insertPath]
    simp only [hlook]
  | k :: k₂ :: rr, st, x, xs, _, hlook => by
    rw [lookupPath] at hlook
    cases hget : getKey st k with
    | none => simp [hget] at hlook
    | some e =>
      cases e with
      | file => simp [hget] at hlook
      | dir children =>
        simp only [hget] at hlook
        have ihf := insertPath_fail (k₂ :: rr) children x xs (by simp) hlook
        rw [List.cons_append] at ihf ⊢
        rw [List.cons_append]
        rw [insertPath]
        simp only [hget, ihf]

theorem insertPath_persist : ∀ (qsegs : List String) (st st' : List (String × Entry))
    (r : List String), insertPath st qsegs = some st' →
    lookupPath st r = some Entry.file → ¬ (qsegs <+: r) →
    lookupPath st' r = some Entry.file
  | [], _, _, r, _, _, hnp => absurd (List.nil_prefix) hnp
  | [qk], st, st', r, hins, hlook, hnp => by
    rw [insertPath] at hins
    obtain rfl := Option.some.inj hins
    match r with
    | [] => rw [lookupPath] at hlook; exact absurd hlook (by simp)
    | [rk] =>
      have hne : qk ≠ rk := fun h => hnp (by rw [h])
      rw [lookupPath] at hlook ⊢
      rw [getKey_setKey_ne st qk rk Entry.file (Ne.symm hne)]
      exact hlook
    | rk :: r₂ :: rr =>
      rw [lookupPath] at hlook ⊢
      cases hget : getKey st rk with
      | none => simp [hget] at hlook
      | some e =>
        cases e with
        | file => simp [hget] at hlook
        | dir ch =>
          have hne : qk ≠ rk := fun h => hnp ⟨r₂ :: rr, by rw [h]; rfl⟩
          rw [getKey_setKey_ne st qk rk Entry.file (Ne.symm hne), hget]
          simp only [hget] at hlook
          exact hlook
  | qk :: q₂ :: qrest, st, st', r, hins, hlook, hnp => by
    rw [insertPath] at hins
    cases hget : getKey st qk with
    | none =>
      simp only [hget] at hins
      cases hsub : insertPath [] (q₂ :: qrest) with
      | none => simp [hsub] at hins
      | some sub =>
        simp only [hsub] at hins
        obtain rfl := Option.some.inj hins
        match r with
        | [] => rw [lookupPath] at hlook; exact absurd hlook (by simp)
        | [rk] =>
          rw [lookupPath] at hlook ⊢
          have hne : qk ≠ rk := fun h => by
            rw [h] at hget
            rw [hget] at hlook
            exact absurd hlook (by simp)
          rw [getKey_setKey_ne st qk rk _ (Ne.symm hne)]
          exact hlook
        | rk :: r₂ :: rr =>
          rw [lookupPath] at hlook ⊢
          cases hgetr : getKey st rk with
          | none => simp [hgetr] at hlook
          | some e =>
            cases e with
            | file => simp [hgetr] at hlook
            | dir ch =>
              have hne : qk ≠ rk := fun h => by
                rw [h] at hget
                rw [hget] at hgetr
                exact absurd hgetr (by simp)
              rw [getKey_setKey_ne st qk rk _ (Ne.symm hne), hgetr]
              simp only [hgetr] at hlook
              exact hlook
    | some e =>
      cases e with
      | file => simp [hget] at hins
      | dir children =>
        simp only [hget] at hins
        cases hsub : insertPath children (q₂ :: qrest) with
        | none => simp [hsub] at hins
        | some sub =>
          simp only [hsub] at hins
          obtain rfl := Option.some.inj hins
          match r with
          | [] => rw [lookupPath] at hlook; exact absurd hlook (by simp)
          | [rk] =>
            rw [lookupPath] at hlook ⊢
            have hne : qk ≠ rk := fun h => by
              rw [h] at hget
              rw [hget] at hlook
              exact absurd hlook (by simp)
            rw [getKey_setKey_ne st qk rk _ (Ne.symm hne)]
            exact hlook
          | rk :: r₂ :: rr =>
            rw [lookupPath] at hlook ⊢
            cases hgetr : getKey st rk with
            | none => simp [hgetr] at hlook
            | some e' =>
              cases e' with
              | file => simp [hgetr] at hlook
              | dir ch =>
                by_cases heq : qk = rk
                · subst heq
                  rw [hget] at hgetr
                  obtain rfl := Entry.dir.inj (Option.some.inj hgetr)
                  rw [getKey_setKey_self]
                  simp only [hget] at hlook
                  have hnp' : ¬ (q₂ :: qrest <+: r₂ :: rr) := fun hpre => hnp
                    (List.cons_prefix_cons.mpr ⟨rfl, hpre⟩)
                  exact insertPath_persist (q₂ :: qrest) children sub (r₂ :: rr) hsub hlook hnp'
                · rw [getKey_setKey_ne st qk rk _ (Ne.symm heq), hgetr]
                  simp only [hgetr] at hlook
                  exact hlook

theorem leafAbove_persist (qsegs : List String) (st st' : List (String × Entry))
    (psegs : List String) (hins : insertPath st qsegs = some st')
    (hla : leafAbove st psegs) : leafAbove st' psegs := by
  obtain ⟨r, hrne, hrpre, hrlook⟩ := hla
  by_cases hq : qsegs <+: r
  · cases qsegs with
    | nil =>
      rw [insertPath] at hins
      obtain rfl := Option.some.inj hins
      exact ⟨r, hrne, hrpre, hrlook⟩
    | cons q qs =>
      exact ⟨q :: qs, by simp, hq.trans hrpre,
        insertPath_created (q :: qs) st st' (by simp) hins⟩
  · exact ⟨r, hrne, hrpre, insertPath_persist qsegs st st' r hins hrlook hq⟩

theorem insertPath_fail_of_leafAbove (st : List (String × Entry)) (psegs tail : List String)
    (htail : tail ≠ []) (hla : leafAbove st psegs) : insertPath st (psegs ++ tail) = none := by
  obtain ⟨r, hrne, hrpre, hrlook⟩ := hla
  obtain ⟨mid, rfl⟩ := hrpre
  rw [List.append_assoc]
  obtain ⟨x, xs, hxt⟩ : ∃ x xs, mid ++ tail = x :: xs := by
    cases h : mid ++ tail with
    | nil =>
      rcases List.append_eq_nil.mp h with ⟨-, h2⟩
      exact absurd h2 htail
    | cons x xs => exact ⟨x, xs, rfl⟩
  rw [hxt]
  exact insertPath_fail r st x xs hrne hrlook

theorem buildGo_hits_leaf (psegs tail : List String) (target : String)
    (htail : tail ≠ []) (hsegEq : segments target = psegs ++ tail) :
    ∀ (l : List String) (st : List (String × Entry)),
      leafAbove st psegs → target ∈ l → buildGo st l = none := by
  intro l
  induction l with
  | nil =>
    intro st _ hmem
    simp at hmem
  | cons q rest ih =>
    intro st hla hmem
    rw [buildGo]
    by_cases hq : q = target
    · subst hq
      rw [hsegEq, insertPath_fail_of_leafAbove st psegs tail htail hla]
    · have hmem2 : target ∈ rest := by
        rcases List.mem_cons.mp hmem with h | h
        · exact absurd h.symm hq
        · exact h
      cases hins : insertPath st (segments q) with
      | none => simp only [hins]
      | some st2 =>
        simp only [hins]
        exact ih st2 (leafAbove_persist (segments q) st st2 psegs hins hla) hmem2

theorem buildGo_append (u v : List String) : ∀ st : List (String × Entry),
    buildGo st (u ++ v) =
      match buildGo st u with
      | none => none
      | some st' => buildGo st' v := by
  induction u with
  | nil =>
    intro st
    rw [List.nil_append, buildGo]
  | cons q u' ih =>
    intro st
    rw [List.cons_append, buildGo, buildGo]
    cases hins : insertPath st (segments q) with
    | none => simp only [hins]
    | some st' =>
      simp only [hins]
      exact ih st'

theorem lex_append_cons (u : List Char) (c : Char) (v : List Char) :
    List.Lex (· < ·) u (u ++ c :: v) := by
  induction u with
  | nil => exact List.Lex.nil
  | cons a u' ih => exact List.Lex.cons ih

theorem str_lt_extend (p s : String) : p < p ++ "/" ++ s := by
  rw [String.lt_iff_toList_lt]
  have hd : (p ++ "/" ++ s).toList = p.toList ++ '/' :: s.toList := by
    simp [String.toList]
  rw [hd]
  exact lex_append_cons p.toList '/' s.toList

theorem buildGo_none_sorted (l : List String) (p s : String)
    (hsorted : List.Sorted (· ≤ ·) l) (hp : p ∈ l) (hps : p ++ "/" ++ s ∈ l) :
    ∀ st : List (String × Entry), buildGo st l = none := by
  intro st
  obtain ⟨l₁, l₂, rfl⟩ := List.append_of_mem hp
  have hlt : p < p ++ "/" ++ s := str_lt_extend p s
  have hmem2 : (p ++ "/" ++ s) ∈ l₂ := by
    rcases List.mem_append.mp hps with h | h
    · exfalso
      have hcross := (List.pairwise_append.mp hsorted).2.2
      have hle : (p ++ "/" ++ s) ≤ p := hcross _ h p (List.mem_cons_self _ _)
      exact absurd hlt (not_lt.mpr hle)
    · rcases List.mem_cons.mp h with h2 | h2
      · exact absurd h2.symm (ne_of_lt hlt)
      · exact h2
  rw [buildGo_append]
  cases h1 : buildGo st l₁ with
  | none => simp only
  | some st₁ =>
    simp only
    rw [buildGo]
    cases hins : insertPath st₁ (segments p) with
    | none => simp only [hins]
    | some st₂ =>
      simp only [hins]
      refine buildGo_hits_leaf (segments p) (segments s) (p ++ "/" ++ s)
        (segments_ne_nil s) (segments_append_slash p s) l₂ st₂ ?_ hmem2
      exact ⟨segments p, segments_ne_nil p, List.prefix_rfl,
        insertPath_created (segments p) st₁ st₂ (segments_ne_nil p) hins⟩

/-- C10: a file mapping containing both a path `p` and a strict slash-extension
`p ++ "/" ++ s` makes `createRepoStructure` fail — the sorted insertion order
puts `p` first, its leaf (or a leaf above it) is still present when the longer
path is inserted, and descending through the boolean leaf throws the
strict-mode `TypeError` — so `analyzeRepository` aborts before any LLM call. -/
theorem analyzeRepository_aborts_on_nested_path (files : List (String × String)) (p s : String)
    (hp : p ∈ files.map Prod.fst) (hps : p ++ "/" ++ s ∈ files.map Prod.fst) :
    analyzeRepositoryPrep files = none := by
  have hsorted : List.Sorted (· ≤ ·) (sortStrings (files.map Prod.fst)) :=
    List.sorted_insertionSort _ _
  have hperm : List.Perm (sortStrings (files.map Prod.fst)) (files.map Prod.fst) :=
    List.perm_insertionSort _ _
  have hnone : buildStructure (sortStrings (files.map Prod.fst)) = none :=
    buildGo_none_sorted _ p s hsorted (hperm.mem_iff.mpr hp) (hperm.mem_iff.mpr hps) []
  rw [analyzeRepositoryPrep, createRepoStructure, hnone]

/-- C10 witness: the mapping holding the keys `a` and `a/b` aborts. -/
theorem analyzeRepository_aborts_on_nested_path_witness :
    analyzeRepositoryPrep [("a", "x"), ("a/b", "y")] = none :=
  analyzeRepository_aborts_on_nested_path [("a", "x"), ("a/b", "y")] "a" "b"
    (by decide) (by decide)

end GitIt
